import Mathlib

/-!
Shallow embedding of the s3explorer repository
(src/features/explorer/s3.server.ts and src/features/explorer/hooks.ts).

Conventions of the embedding:
* JS strings are Lean `String`s; string operations that the TS code performs
  through regexes or built-ins are spelled out over the underlying `List Char`.
* The TS field and function name `prefix` is a Lean keyword; it is spelled
  `pfx` (for record fields) or `...Pfx` (for functions) throughout.
* Optional/undefined values are `Option`s; zod validation failures are the
  `Except.error` branch.
* The S3 client is passed in as a function argument (`store`, `head`,
  `presign`); each server function also returns the list of storage requests
  it issued, so that "no storage call happens" is a statement about the code,
  mirroring the fact that the zod validator runs before the handler.
* `Array.prototype.sort` (stable since ES2019) is modelled by a stable
  insertion sort `sortJS` over the JS comparator (negative means "first
  argument first").
* `String.prototype.localeCompare` is modelled as code-point lexicographic
  comparison (the collation of the C locale); JS `<`/`>` on strings is
  likewise code-unit lexicographic comparison.
-/

/-- JS truthiness of an optional string: `undefined` and `""` are falsy. -/
def jsTruthy (s : Option String) : Bool :=
  match s with
  | none => false
  | some t => t != ""

/-- Negation of `jsTruthy`: models `!x` on an optional string. -/
def jsFalsy (s : Option String) : Bool :=
  match s with
  | none => true
  | some t => t == ""

/-- Code-point lexicographic strict order on character lists; model of the
JS `<` comparison on strings. -/
def lexLt (a b : List Char) : Bool :=
  decide (a < b)

/-- Model of `String.prototype.localeCompare`, with the collation taken to be
code-point lexicographic order. -/
def localeCompare (a b : String) : Int :=
  if lexLt a.data b.data then -1 else if lexLt b.data a.data then 1 else 0

/-- Model of the regex replacement `.replace(/^\/+/, '')`: drop every leading
`'/'` character. -/
def stripLeadingSlashes (s : String) : String :=
  String.mk (s.data.dropWhile (fun c => c == '/'))

/-- Model of `.endsWith('/')`. -/
def endsWithSlash (s : String) : Bool :=
  s.data.getLast? == some '/'

/-- Model of the regex replacement `.replace(/\/$/, '')`: drop one trailing
slash when present. -/
def dropTrailingSlash (s : String) : String :=
  if endsWithSlash s then String.mk s.data.dropLast else s

/-- Helper for `removeFirst`: remove the first occurrence of `pat` from a
character list (the occurrence at the leftmost starting position). -/
def removeFirstAux (pat : List Char) : List Char → List Char
  | [] => []
  | c :: cs => if pat.isPrefixOf (c :: cs) then (c :: cs).drop pat.length
               else c :: removeFirstAux pat cs

/-- Model of JS `s.replace(pat, '')` with a *string* pattern: remove the first
occurrence of `pat` from `s` (no occurrence leaves `s` unchanged; an empty
pattern matches at position 0 and removes nothing). -/
def removeFirst (s pat : String) : String :=
  String.mk (removeFirstAux pat.data s.data)

/-- Embedding of `normalizePrefix` from s3.server.ts:
`if (!prefix) return ''`, strip leading slashes, then append `'/'` unless the
trimmed string already ends with one. -/
def normalizePfx (p? : Option String) : String :=
  match p? with
  | none => ""
  | some p =>
    if p == "" then ""
    else
      let trimmed := stripLeadingSlashes p
      if endsWithSlash trimmed then trimmed else trimmed ++ "/"

/-- A raw `_Object` entry as returned by `ListObjectsV2` (every field the SDK
marks optional is an `Option`; `LastModified?.toISOString()` is modelled by
carrying the ISO string directly). -/
structure RawObject where
  Key : Option String
  Size : Option Int
  LastModified : Option String
  ETag : Option String
deriving DecidableEq, Repr

/-- The mapped object entry (`{ key, size, lastModified, etag }`). -/
structure ObjectEntry where
  key : String
  size : Int
  lastModified : Option String
  etag : Option String
deriving DecidableEq, Repr

/-- Embedding of `safeMapObjects` from s3.server.ts: default the missing
`Contents` array to `[]`, keep entries with a truthy `Key`, map each to an
`ObjectEntry` with `Size ?? 0`. -/
def safeMapObjects (objects : Option (List RawObject)) : List ObjectEntry :=
  ((objects.getD []).filter (fun o => jsTruthy o.Key)).map (fun o =>
    { key := o.Key.getD "", size := o.Size.getD 0,
      lastModified := o.LastModified, etag := o.ETag })

/-- One step of `sortJS`: insert `a` into an already sorted list, keeping it
after every element `b` with `c a b ≥ 0` (this is what makes the sort
stable). -/
def insertJS {α : Type} (c : α → α → Int) (a : α) : List α → List α
  | [] => [a]
  | b :: bs => if c a b < 0 then a :: b :: bs else b :: insertJS c a bs

/-- Model of `Array.prototype.sort(c)`: a stable comparison sort driven by the
JS comparator `c`. -/
def sortJS {α : Type} (c : α → α → Int) (l : List α) : List α :=
  l.foldl (fun acc a => insertJS c a acc) []

/-- The object comparator of `listObjectsPaginated` (and `listObjects`):
entries with no `lastModified` sort after all entries that have one, two such
entries compare equal, and otherwise the later ISO timestamp sorts first. -/
def cmpObjects (a b : ObjectEntry) : Int :=
  if jsFalsy a.lastModified && jsFalsy b.lastModified then 0
  else if jsFalsy a.lastModified then 1
  else if jsFalsy b.lastModified then -1
  else if lexLt (b.lastModified.getD "").data (a.lastModified.getD "").data then -1
  else 1

/-- A folder entry (`{ name, prefix }`; the TS field `prefix` is `pfx`). -/
structure FolderEntry where
  name : String
  pfx : String
deriving DecidableEq, Repr

/-- The folder comparator of `listObjectsPaginated`:
`(a, b) => a.name.localeCompare(b.name)`. -/
def cmpFolders (a b : FolderEntry) : Int :=
  localeCompare a.name b.name

/-- The unsorted folder pipeline shared by `listObjects` and
`listObjectsPaginated`: map each common prefix to
`entry.Prefix?.replace(prefix, '') ?? ''`, keep the truthy names different
from the queried prefix, and build `{ name, prefix }` records. -/
def rawFoldersOf (pfx : String) (commonPrefixes : Option (List (Option String))) :
    List FolderEntry :=
  List.map (fun n => { name := dropTrailingSlash n, pfx := pfx ++ n })
    (List.filter (fun n => n != "" && n != pfx)
      (List.map (fun (e : Option String) => (e.map (fun s => removeFirst s pfx)).getD "")
        (commonPrefixes.getD [])))

/-- The folder pipeline of `listObjectsPaginated`: the shared pipeline
followed by `.sort((a, b) => a.name.localeCompare(b.name))`. -/
def foldersOf (pfx : String) (commonPrefixes : Option (List (Option String))) :
    List FolderEntry :=
  sortJS cmpFolders (rawFoldersOf pfx commonPrefixes)

/-- A `ListObjectsV2` request as issued by the two listing functions. -/
structure ListChildrenRequest where
  bucket : String
  /-- `Prefix: prefix || undefined` -/
  pfx : Option String
  delimiter : String
  maxKeys : Nat
  continuationToken : Option String
deriving DecidableEq, Repr

/-- A `ListObjectsV2` response (all fields the SDK marks optional are
`Option`s; common prefix records carry an optional `Prefix` string). -/
structure ListChildrenResponse where
  Contents : Option (List RawObject)
  CommonPrefixes : Option (List (Option String))
  IsTruncated : Option Bool
  NextContinuationToken : Option String
deriving DecidableEq, Repr

/-- The sorted object list computed by `listObjectsPaginated`
(`safeMapObjects(response.Contents).sort(...)`). -/
def allObjectsOf (resp : ListChildrenResponse) : List ObjectEntry :=
  sortJS cmpObjects (safeMapObjects resp.Contents)

/-- Raw input of `paginatedListSchema` before validation (absent fields are
`none`; zod numbers are modelled as integers). -/
structure PaginatedListInput where
  pfx : Option String
  foldersPage : Option Int
  filesPage : Option Int
  itemsPerPage : Option Int
deriving DecidableEq, Repr

/-- Parsed output of `paginatedListSchema`: the pages are positive and
`itemsPerPage` is in 1..50, so they are carried as `Nat`. -/
structure PaginatedListData where
  pfx : Option String
  foldersPage : Nat
  filesPage : Nat
  itemsPerPage : Nat
deriving DecidableEq, Repr

/-- The constraint violated by a rejected request (zod issue, one per
schema check). -/
inductive ValidationError where
  | foldersPageNotPositive
  | filesPageNotPositive
  | itemsPerPageNotPositive
  | itemsPerPageAboveCap
  | limitNotPositive
  | limitAboveCap
  | keyEmpty
  | dispositionInvalid
deriving DecidableEq, Repr

/-- Embedding of `paginatedListSchema.parse`: defaults 1 / 1 / 10, every page
positive, `itemsPerPage` positive and at most 50. -/
def parsePaginatedList (i : PaginatedListInput) : Except ValidationError PaginatedListData :=
  if i.foldersPage.getD 1 ≤ 0 then .error .foldersPageNotPositive
  else if i.filesPage.getD 1 ≤ 0 then .error .filesPageNotPositive
  else if i.itemsPerPage.getD 10 ≤ 0 then .error .itemsPerPageNotPositive
  else if 50 < i.itemsPerPage.getD 10 then .error .itemsPerPageAboveCap
  else .ok { pfx := i.pfx, foldersPage := (i.foldersPage.getD 1).toNat,
             filesPage := (i.filesPage.getD 1).toNat,
             itemsPerPage := (i.itemsPerPage.getD 10).toNat }

/-- One of the two page-metadata records of a listing response. -/
structure PageMeta where
  currentPage : Nat
  totalPages : Nat
  totalItems : Nat
  itemsPerPage : Nat
  hasNextPage : Bool
  hasPrevPage : Bool
deriving DecidableEq, Repr

/-- `Math.ceil(totalItems / itemsPerPage)` on non-negative integers. -/
def totalPagesOf (totalItems ipp : Nat) : Nat :=
  (totalItems + ipp - 1) / ipp

/-- `list.slice(startIndex, endIndex)` with
`startIndex = (page - 1) * itemsPerPage` and
`endIndex = startIndex + itemsPerPage`. -/
def paginate {α : Type} (l : List α) (page ipp : Nat) : List α :=
  (l.drop ((page - 1) * ipp)).take ipp

/-- The page metadata assembled by `listObjectsPaginated` for one list. -/
def pageMetaOf (page totalItems ipp : Nat) : PageMeta :=
  { currentPage := page,
    totalPages := totalPagesOf totalItems ipp,
    totalItems := totalItems,
    itemsPerPage := ipp,
    hasNextPage := decide (page < totalPagesOf totalItems ipp),
    hasPrevPage := decide (1 < page) }

/-- The result record of `listObjectsPaginated` (`pagination.folders` and
`pagination.files` are flattened into `foldersMeta` / `filesMeta`; the TS
field `prefix` is `pfx`). -/
structure PaginatedResult where
  pfx : String
  objects : List ObjectEntry
  folders : List FolderEntry
  foldersMeta : PageMeta
  filesMeta : PageMeta
  isTruncated : Bool
  nextCursor : Option String
deriving DecidableEq, Repr

/-- The handler body of `listObjectsPaginated`, applied to the validated data
and the storage response. -/
def listObjectsPaginatedHandler (data : PaginatedListData) (resp : ListChildrenResponse) :
    PaginatedResult :=
  let pfx := normalizePfx data.pfx
  let allObjects := allObjectsOf resp
  let allFolders := foldersOf pfx resp.CommonPrefixes
  { pfx := pfx,
    objects := paginate allObjects data.filesPage data.itemsPerPage,
    folders := paginate allFolders data.foldersPage data.itemsPerPage,
    foldersMeta := pageMetaOf data.foldersPage allFolders.length data.itemsPerPage,
    filesMeta := pageMetaOf data.filesPage allObjects.length data.itemsPerPage,
    isTruncated := resp.IsTruncated.getD false,
    nextCursor := resp.NextContinuationToken }

/-- The `ListObjectsV2Command` issued by `listObjectsPaginated`:
`Prefix: prefix || undefined`, `Delimiter: '/'`, `MaxKeys: 1000`. -/
def paginatedRequestOf (bucket : String) (data : PaginatedListData) : ListChildrenRequest :=
  let pfx := normalizePfx data.pfx
  { bucket := bucket,
    pfx := if pfx == "" then none else some pfx,
    delimiter := "/",
    maxKeys := 1000,
    continuationToken := none }

/-- Embedding of the server function `listObjectsPaginated`: the zod
validator runs first (its failure prevents the handler from running), the
handler issues exactly one `ListObjectsV2` call.  The second component lists
the storage requests issued during the call. -/
def listObjectsPaginated (bucket : String) (input : PaginatedListInput)
    (store : ListChildrenRequest → ListChildrenResponse) :
    Except ValidationError PaginatedResult × List ListChildrenRequest :=
  match parsePaginatedList input with
  | .error e => (.error e, [])
  | .ok data =>
    let req := paginatedRequestOf bucket data
    (.ok (listObjectsPaginatedHandler data (store req)), [req])

/-- Raw input of `listRequestSchema` before validation. -/
structure ListInput where
  pfx : Option String
  limit : Option Int
  cursor : Option String
deriving DecidableEq, Repr

/-- Parsed output of `listRequestSchema` (`limit` is in 1..200). -/
structure ListData where
  pfx : Option String
  limit : Nat
  cursor : Option String
deriving DecidableEq, Repr

/-- Embedding of `listRequestSchema.parse`: `limit` defaults to 50, positive,
at most 200. -/
def parseListRequest (i : ListInput) : Except ValidationError ListData :=
  if i.limit.getD 50 ≤ 0 then .error .limitNotPositive
  else if 200 < i.limit.getD 50 then .error .limitAboveCap
  else .ok { pfx := i.pfx, limit := (i.limit.getD 50).toNat, cursor := i.cursor }

/-- The result record of `listObjects` (the TS field `prefix` is `pfx`). -/
structure ListResult where
  pfx : String
  objects : List ObjectEntry
  folders : List FolderEntry
  isTruncated : Bool
  nextCursor : Option String
deriving DecidableEq, Repr

/-- The `ListObjectsV2Command` issued by `listObjects`. -/
def listRequestOf (bucket : String) (data : ListData) : ListChildrenRequest :=
  let pfx := normalizePfx data.pfx
  { bucket := bucket,
    pfx := if pfx == "" then none else some pfx,
    delimiter := "/",
    maxKeys := data.limit,
    continuationToken := data.cursor }

/-- The handler body of `listObjects`: sorted objects cut to `limit` by
`.slice(0, data.limit)`, folders from the shared (unsorted) pipeline. -/
def listObjectsHandler (data : ListData) (resp : ListChildrenResponse) : ListResult :=
  let pfx := normalizePfx data.pfx
  { pfx := pfx,
    objects := (sortJS cmpObjects (safeMapObjects resp.Contents)).take data.limit,
    folders := rawFoldersOf pfx resp.CommonPrefixes,
    isTruncated := resp.IsTruncated.getD false,
    nextCursor := resp.NextContinuationToken }

/-- Embedding of the server function `listObjects`, with the issued storage
requests as second component. -/
def listObjects (bucket : String) (input : ListInput)
    (store : ListChildrenRequest → ListChildrenResponse) :
    Except ValidationError ListResult × List ListChildrenRequest :=
  match parseListRequest input with
  | .error e => (.error e, [])
  | .ok data =>
    let req := listRequestOf bucket data
    (.ok (listObjectsHandler data (store req)), [req])

/-- The two content dispositions accepted by `objectAccessSchema`. -/
inductive Disposition where
  | inline
  | attachment
deriving DecidableEq, Repr

/-- Raw input of `objectAccessSchema` before validation. -/
structure AccessInput where
  key : Option String
  disposition : Option String
deriving DecidableEq, Repr

/-- Parsed output of `objectAccessSchema` (`key` non-empty, disposition
defaulted to inline). -/
structure AccessData where
  key : String
  disposition : Disposition
deriving DecidableEq, Repr

/-- Embedding of `objectAccessSchema.parse`: `key` must be a non-empty
string, `disposition` must be `inline` or `attachment` and defaults to
`inline`. -/
def parseObjectAccess (i : AccessInput) : Except ValidationError AccessData :=
  match i.key with
  | none => .error .keyEmpty
  | some k =>
    if k == "" then .error .keyEmpty
    else
      match i.disposition with
      | none => .ok { key := k, disposition := .inline }
      | some "inline" => .ok { key := k, disposition := .inline }
      | some "attachment" => .ok { key := k, disposition := .attachment }
      | some _ => .error .dispositionInvalid

/-- A `HeadObject` response (optional metadata fields). -/
structure HeadResponse where
  ContentType : Option String
  ContentLength : Option Int
  LastModified : Option String
deriving DecidableEq, Repr

/-- The presigned `GetObjectCommand` with its response-override parameters
and expiry, as passed to `getSignedUrl`. -/
structure PresignRequest where
  bucket : String
  key : String
  responseContentDisposition : String
  responseContentType : Option String
  expiresIn : Nat
deriving DecidableEq, Repr

/-- The access grant returned by `getObjectAccess`. -/
structure AccessGrant where
  key : String
  signedUrl : String
  contentType : String
  contentLength : Int
  lastModified : Option String
deriving DecidableEq, Repr

/-- Embedding of the server function `getObjectAccess`: validate, head the
object, presign a get with the requested disposition and the head
content-type as response overrides and a fixed 300-second expiry, and return
the grant.  The presign request is returned alongside the grant so its
parameters can be inspected. -/
def getObjectAccess (bucket : String) (input : AccessInput)
    (head : String → HeadResponse) (presign : PresignRequest → String) :
    Except ValidationError (AccessGrant × PresignRequest) :=
  match parseObjectAccess input with
  | .error e => .error e
  | .ok data =>
    let h := head data.key
    let preq : PresignRequest :=
      { bucket := bucket,
        key := data.key,
        responseContentDisposition :=
          if data.disposition == Disposition.attachment then "attachment" else "inline",
        responseContentType := h.ContentType,
        expiresIn := 300 }
    .ok ({ key := data.key,
           signedUrl := presign preq,
           contentType := h.ContentType.getD "application/octet-stream",
           contentLength := h.ContentLength.getD 0,
           lastModified := h.LastModified }, preq)

/-- The client-observed state of `useObjectAccess` (hooks.ts). -/
inductive AccessState where
  | idle
  | loading (key : String)
  | error (key : String) (message : String)
  | success (key : String) (data : AccessGrant)
deriving DecidableEq, Repr

/-- The outcome a `getObjectAccess` promise eventually settles with. -/
inductive FetchOutcome where
  | success (data : AccessGrant)
  | failure (message : String)
deriving DecidableEq, Repr

/-- Observable events of the `useObjectAccess` effect machinery:
`select k` is a run of the effect after the selected key changed to `k`
(`none` models a null key), `resolve e o` is the promise of the fetch started
by effect run `e` settling with outcome `o`. -/
inductive HookEvent where
  | select (key : Option String)
  | resolve (epoch : Nat) (outcome : FetchOutcome)
deriving DecidableEq, Repr

/-- The hook state: `epoch` counts effect runs (the cleanup of run `n` sets
the `aborted` flag of run `n` exactly when run `n + 1` starts), `inflight`
is the fetch launched by the current run if one is outstanding, `state` is
the React state. -/
structure HookState where
  epoch : Nat
  inflight : Option (Nat × String)
  state : AccessState
deriving DecidableEq, Repr

/-- Initial hook state (`useState({ status: 'idle' })`). -/
def initialHookState : HookState :=
  { epoch := 0, inflight := none, state := .idle }

/-- One transition of the `useObjectAccess` machine.  A `select` starts a new
effect run: the previous run's `aborted` flag is set (modelled by the epoch
moving on), and a null key resets to idle while a string key enters loading
and launches a fetch.  A `resolve` applies its outcome only when it belongs
to the fetch of the current run; a stale resolve (its run was aborted) is
ignored, exactly like the `if (aborted) return` guards. -/
def hookStep (s : HookState) : HookEvent → HookState
  | .select none => { epoch := s.epoch + 1, inflight := none, state := .idle }
  | .select (some k) =>
      { epoch := s.epoch + 1, inflight := some (s.epoch + 1, k), state := .loading k }
  | .resolve e outcome =>
      match s.inflight with
      | some (e', k) =>
        if e = e' then
          { epoch := s.epoch, inflight := none,
            state := match outcome with
              | .success d => .success k d
              | .failure m => .error k m }
        else s
      | none => s

/-- Run the `useObjectAccess` machine on a list of events. -/
def runHook (events : List HookEvent) : HookState :=
  events.foldl hookStep initialHookState

/-- The key the current state displays, if any. -/
def stateKey : AccessState → Option String
  | .idle => none
  | .loading k => some k
  | .error k _ => some k
  | .success k _ => some k

/-- The most recently selected key in an event list, starting from `k0`. -/
def lastSelectedFrom (k0 : Option String) : List HookEvent → Option String
  | [] => k0
  | .select k :: es => lastSelectedFrom k es
  | .resolve _ _ :: es => lastSelectedFrom k0 es

/-! ### The normalization as the specification words it (refinement targets) -/

/-- The specification's leading-slash stripping, written as plain recursion
(extensionally the regex `^\/+` removal). -/
def specStripSlashes : List Char → List Char
  | [] => []
  | c :: cs => if c = '/' then specStripSlashes cs else c :: cs

/-- The claimed normalization, exactly as the specification words it: strip
all leading slashes, append exactly one trailing slash when the *stripped
result* is non-empty and lacks one, and map an absent or empty input — and,
by the same words, an input whose stripping leaves nothing — to the empty
string. -/
def specNormalizePfxClaim (p? : Option String) : String :=
  match p? with
  | none => ""
  | some p =>
    let t := specStripSlashes p.data
    if t = [] then ""
    else if t.getLast? = some '/' then String.mk t
    else String.mk (t ++ ['/'])

/-- The amended normalization: as claimed, except that the trailing slash is
appended whenever the stripped string does not already end with one, even
when stripping left the empty string — so an input consisting only of
slashes normalizes to "/", not to "". -/
def specNormalizePfxAmended (p? : Option String) : String :=
  match p? with
  | none => ""
  | some p =>
    if p.data = [] then ""
    else
      let t := specStripSlashes p.data
      if t.getLast? = some '/' then String.mk t
      else String.mk (t ++ ['/'])

/-! ### Concrete sample values shared by the witnesses -/

/-- A concrete storage response (with an undated entry, a keyless entry and
an empty-keyed entry) used by the witnesses. -/
def sampleResp : ListChildrenResponse :=
  { Contents := some [
      { Key := some "docs/a", Size := some 1,
        LastModified := some "2024-01-01T00:00:00.000Z", ETag := some "e1" },
      { Key := some "docs/b", Size := none,
        LastModified := some "2024-03-01T00:00:00.000Z", ETag := none },
      { Key := some "docs/c", Size := some 3, LastModified := none, ETag := none },
      { Key := none, Size := some 9, LastModified := none, ETag := none },
      { Key := some "", Size := some 9, LastModified := none, ETag := none } ],
    CommonPrefixes := some [some "docs/zeta/", some "docs/alpha/"],
    IsTruncated := some false,
    NextContinuationToken := none }

/-- Concrete validated listing data used by the witnesses. -/
def sampleData : PaginatedListData :=
  { pfx := some "docs", foldersPage := 1, filesPage := 1, itemsPerPage := 2 }

/-- Concrete raw listing input used by the witnesses. -/
def sampleInput : PaginatedListInput :=
  { pfx := some "docs", foldersPage := some 1, filesPage := some 1, itemsPerPage := some 2 }

/-- Concrete store function used by the witnesses. -/
def sampleStore : ListChildrenRequest → ListChildrenResponse :=
  fun _ => sampleResp

/-- Concrete head-metadata function used by the witnesses. -/
def sampleHead : String → HeadResponse :=
  fun _ => { ContentType := some "text/plain", ContentLength := some 5,
             LastModified := some "2024-01-01T00:00:00.000Z" }

/-- Concrete head-metadata function with every field absent. -/
def sampleHeadNone : String → HeadResponse :=
  fun _ => { ContentType := none, ContentLength := none, LastModified := none }

/-- Concrete presigner used by the witnesses. -/
def samplePresign : PresignRequest → String :=
  fun _ => "signed-url"

/-! ### Toolkit: the stable sort `sortJS` -/

theorem lexLt_iff (a b : List Char) : lexLt a b = true ↔ a < b := by
  simp [lexLt]

theorem mem_insertJS {α : Type} (c : α → α → Int) (a x : α) :
    ∀ l : List α, x ∈ insertJS c a l ↔ x = a ∨ x ∈ l := by
  intro l
  induction l with
  | nil => simp [insertJS]
  | cons b bs ih =>
    by_cases h : c a b < 0
    · simp only [insertJS, if_pos h, List.mem_cons]
    · simp only [insertJS, if_neg h, List.mem_cons, ih]
      tauto

theorem insertJS_decomp {α : Type} (c : α → α → Int) (a : α) :
    ∀ l : List α, ∃ l1 l2, l = l1 ++ l2 ∧ insertJS c a l = l1 ++ a :: l2 := by
  intro l
  induction l with
  | nil => exact ⟨[], [], rfl, rfl⟩
  | cons b bs ih =>
    by_cases h : c a b < 0
    · exact ⟨[], b :: bs, rfl, by simp [insertJS, h]⟩
    · obtain ⟨l1, l2, he, hi⟩ := ih
      exact ⟨b :: l1, l2, by simp [he], by simp [insertJS, h, hi]⟩

theorem pairwise_insertJS {α : Type} {c : α → α → Int} {R : α → α → Prop}
    (htrans : ∀ x y z, R x y → R y z → R x z)
    (h1 : ∀ x y, c x y < 0 → R x y)
    (h2 : ∀ x y, ¬ c x y < 0 → R y x)
    (a : α) : ∀ l : List α, l.Pairwise R → (insertJS c a l).Pairwise R := by
  intro l
  induction l with
  | nil =>
    intro _
    simp [insertJS]
  | cons b bs ih =>
    intro hl
    rw [List.pairwise_cons] at hl
    obtain ⟨hb, hbs⟩ := hl
    by_cases h : c a b < 0
    · have hab : R a b := h1 a b h
      simp only [insertJS, if_pos h]
      rw [List.pairwise_cons]
      refine ⟨?_, ?_⟩
      · intro x hx
        rcases List.mem_cons.mp hx with rfl | hx
        · exact hab
        · exact htrans a b x hab (hb x hx)
      · rw [List.pairwise_cons]
        exact ⟨hb, hbs⟩
    · simp only [insertJS, if_neg h]
      rw [List.pairwise_cons]
      refine ⟨?_, ih hbs⟩
      intro x hx
      rcases (mem_insertJS c a x bs).mp hx with rfl | hx
      · exact h2 x b h
      · exact hb x hx

theorem pairwise_sortJS {α : Type} {c : α → α → Int} {R : α → α → Prop}
    (htrans : ∀ x y z, R x y → R y z → R x z)
    (h1 : ∀ x y, c x y < 0 → R x y)
    (h2 : ∀ x y, ¬ c x y < 0 → R y x)
    (l : List α) : (sortJS c l).Pairwise R := by
  suffices h : ∀ acc : List α, acc.Pairwise R →
      (l.foldl (fun acc a => insertJS c a acc) acc).Pairwise R by
    exact h [] List.Pairwise.nil
  induction l with
  | nil =>
    intro acc hacc
    exact hacc
  | cons a l ih =>
    intro acc hacc
    simp only [List.foldl_cons]
    exact ih (insertJS c a acc) (pairwise_insertJS htrans h1 h2 a acc hacc)

theorem mem_sortJS {α : Type} (c : α → α → Int) (x : α) (l : List α) :
    x ∈ sortJS c l ↔ x ∈ l := by
  suffices h : ∀ acc : List α,
      x ∈ l.foldl (fun acc a => insertJS c a acc) acc ↔ x ∈ acc ∨ x ∈ l by
    simpa [sortJS] using h []
  induction l with
  | nil =>
    intro acc
    simp
  | cons a l ih =>
    intro acc
    simp only [List.foldl_cons, ih (insertJS c a acc), mem_insertJS, List.mem_cons]
    tauto

theorem insertJS_eq_append {α : Type} {c : α → α → Int} {a : α}
    (ha : ∀ b, ¬ c a b < 0) : ∀ l : List α, insertJS c a l = l ++ [a] := by
  intro l
  induction l with
  | nil => rfl
  | cons b bs ih => simp [insertJS, ha b, ih]

theorem filter_insertJS {α : Type} {c : α → α → Int} {p : α → Bool}
    (hcut : ∀ x y, p x = true → ¬ c x y < 0) (a : α) (l : List α) :
    (insertJS c a l).filter p = if p a then l.filter p ++ [a] else l.filter p := by
  by_cases hpa : p a = true
  · rw [insertJS_eq_append (fun b => hcut a b hpa)]
    simp [List.filter_append, hpa]
  · obtain ⟨l1, l2, he, hi⟩ := insertJS_decomp c a l
    rw [hi, he]
    simp [List.filter_append, List.filter_cons, hpa]

theorem filter_sortJS {α : Type} {c : α → α → Int} {p : α → Bool}
    (hcut : ∀ x y, p x = true → ¬ c x y < 0) (l : List α) :
    (sortJS c l).filter p = l.filter p := by
  suffices h : ∀ acc : List α,
      (l.foldl (fun acc a => insertJS c a acc) acc).filter p
        = acc.filter p ++ l.filter p by
    simpa [sortJS] using h []
  induction l with
  | nil =>
    intro acc
    simp
  | cons a l ih =>
    intro acc
    simp only [List.foldl_cons]
    rw [ih (insertJS c a acc), filter_insertJS hcut]
    by_cases hpa : p a = true <;> simp [hpa, List.filter_cons]

/-! ### Toolkit: pagination arithmetic -/

theorem paginate_length_le {α : Type} (l : List α) (page ipp : Nat) :
    (paginate l page ipp).length ≤ ipp :=
  List.length_take_le ipp _

theorem totalPagesOf_mul_ge {ipp : Nat} (h : 0 < ipp) (n : Nat) :
    n ≤ totalPagesOf n ipp * ipp := by
  have hd := Nat.div_add_mod (n + ipp - 1) ipp
  have hm : (n + ipp - 1) % ipp < ipp := Nat.mod_lt _ h
  unfold totalPagesOf
  rw [Nat.mul_comm]
  generalize hq : (n + ipp - 1) / ipp = q at hd ⊢
  generalize hr : (n + ipp - 1) % ipp = r at hd hm
  generalize hpq : ipp * q = m at hd ⊢
  omega

theorem paginate_eq_nil {α : Type} {l : List α} {page ipp : Nat} (h : 0 < ipp)
    (hp : totalPagesOf l.length ipp < page) : paginate l page ipp = [] := by
  unfold paginate
  have h2 : l.length ≤ totalPagesOf l.length ipp * ipp := totalPagesOf_mul_ge h _
  have h3 : totalPagesOf l.length ipp ≤ page - 1 := by omega
  have h1 : l.length ≤ (page - 1) * ipp :=
    le_trans h2 (Nat.mul_le_mul_right ipp h3)
  rw [List.drop_eq_nil_of_le h1]
  simp

theorem totalPagesOf_eq_ceil {ipp : Nat} (h : 0 < ipp) (n : Nat) :
    totalPagesOf n ipp = n / ipp + (if n % ipp = 0 then 0 else 1) := by
  unfold totalPagesOf
  rw [Nat.add_sub_assoc h n, Nat.add_div h]
  have h1 : (ipp - 1) / ipp = 0 := Nat.div_eq_of_lt (by omega)
  have h2 : (ipp - 1) % ipp = ipp - 1 := Nat.mod_eq_of_lt (by omega)
  rw [h1, h2]
  have hm : n % ipp < ipp := Nat.mod_lt _ h
  generalize n % ipp = r at hm ⊢
  generalize n / ipp = q
  split <;> split <;> omega

theorem totalPagesOf_zero (ipp : Nat) : totalPagesOf 0 ipp = 0 := by
  unfold totalPagesOf
  cases ipp with
  | zero => rfl
  | succ k => exact Nat.div_eq_of_lt (by omega)

theorem totalPagesOf_succ {ipp n : Nat} (h : 0 < ipp) (hn : 0 < n) :
    totalPagesOf n ipp = totalPagesOf (n - ipp) ipp + 1 := by
  unfold totalPagesOf
  have e1 : n + ipp - 1 = (n - 1) + ipp := by omega
  rw [e1, Nat.add_div_right _ h]
  by_cases hle : n ≤ ipp
  · have e2 : n - ipp = 0 := by omega
    rw [e2]
    have hz1 : (n - 1) / ipp = 0 := Nat.div_eq_of_lt (by omega)
    have hz2 : (0 + ipp - 1) / ipp = 0 := Nat.div_eq_of_lt (by omega)
    rw [hz1, hz2]
  · have e3 : n - ipp + ipp - 1 = (n - ipp - 1) + ipp := by omega
    rw [e3, Nat.add_div_right _ h]
    have e4 : n - ipp - 1 + ipp = n - 1 := by omega
    rw [← e4, Nat.add_div_right _ h]

theorem paginate_one {α : Type} (l : List α) (ipp : Nat) :
    paginate l 1 ipp = l.take ipp := by
  simp [paginate]

theorem paginate_drop {α : Type} (l : List α) (i ipp : Nat) :
    paginate l (i + 2) ipp = paginate (l.drop ipp) (i + 1) ipp := by
  unfold paginate
  rw [List.drop_drop]
  congr 2
  have e1 : i + 2 - 1 = i + 1 := by omega
  have e2 : i + 1 - 1 = i := by omega
  rw [e1, e2, Nat.succ_mul, Nat.add_comm]

theorem flatten_paginate {α : Type} {ipp : Nat} (h : 0 < ipp) :
    ∀ (fuel : Nat) (l : List α), l.length ≤ fuel →
      ((List.range (totalPagesOf l.length ipp)).map (fun i => paginate l (i + 1) ipp)).flatten
        = l := by
  intro fuel
  induction fuel with
  | zero =>
    intro l hl
    have hnil : l = [] := List.eq_nil_of_length_eq_zero (by omega)
    subst hnil
    simp [totalPagesOf_zero]
  | succ fuel ih =>
    intro l hl
    rcases hlen : l with _ | ⟨x, xs⟩
    · simp [totalPagesOf_zero]
    · rw [← hlen]
      have hpos : 0 < l.length := by rw [hlen]; simp
      rw [totalPagesOf_succ h hpos, List.range_succ_eq_map]
      simp only [List.map_cons, List.map_map, List.flatten_cons]
      have hfun : ((List.range (totalPagesOf (l.length - ipp) ipp)).map
            ((fun i => paginate l (i + 1) ipp) ∘ Nat.succ))
          = (List.range (totalPagesOf (l.length - ipp) ipp)).map
            (fun i => paginate (l.drop ipp) (i + 1) ipp) := by
        refine List.map_congr_left ?_
        intro i _
        show paginate l (i + 1 + 1) ipp = paginate (l.drop ipp) (i + 1) ipp
        exact paginate_drop l i ipp
      rw [hfun]
      have hdlen : (l.drop ipp).length = l.length - ipp := List.length_drop ipp l
      have hdle : (l.drop ipp).length ≤ fuel := by
        rw [hdlen]
        omega
      have hrec := ih (l.drop ipp) hdle
      rw [hdlen] at hrec
      rw [hrec, paginate_one, List.take_append_drop]

/-! ### Toolkit: facts about the two comparators -/

/-- When the comparator ranks `x` strictly before `y`, `x` is either dated
with `y` undated, or both are dated and `y`'s timestamp is at most `x`'s. -/
theorem cmpObjects_neg {x y : ObjectEntry} (h : cmpObjects x y < 0) :
    (jsFalsy x.lastModified = true → jsFalsy y.lastModified = true) ∧
    (jsFalsy x.lastModified = false → jsFalsy y.lastModified = false →
      (y.lastModified.getD "").data ≤ (x.lastModified.getD "").data) := by
  unfold cmpObjects at h
  by_cases hx : jsFalsy x.lastModified <;> by_cases hy : jsFalsy y.lastModified <;>
      simp [hx, hy] at h ⊢
  split at h
  next hlt => exact le_of_lt ((lexLt_iff _ _).mp hlt)
  next => exact absurd h (by norm_num)

/-- When the comparator does not rank `x` strictly before `y`, the pair
`(y, x)` is correctly ordered. -/
theorem cmpObjects_nonneg {x y : ObjectEntry} (h : ¬ cmpObjects x y < 0) :
    (jsFalsy y.lastModified = true → jsFalsy x.lastModified = true) ∧
    (jsFalsy y.lastModified = false → jsFalsy x.lastModified = false →
      (x.lastModified.getD "").data ≤ (y.lastModified.getD "").data) := by
  unfold cmpObjects at h
  by_cases hx : jsFalsy x.lastModified <;> by_cases hy : jsFalsy y.lastModified <;>
      simp [hx, hy] at h ⊢
  split at h
  next => exact absurd h (by norm_num)
  next hlt => exact not_lt.mp (fun hl => hlt ((lexLt_iff _ _).mpr hl))

/-- The target order of `cmpObjects` is transitive. -/
theorem objOrdered_trans (x y z : ObjectEntry)
    (hxy : (jsFalsy x.lastModified = true → jsFalsy y.lastModified = true) ∧
      (jsFalsy x.lastModified = false → jsFalsy y.lastModified = false →
        (y.lastModified.getD "").data ≤ (x.lastModified.getD "").data))
    (hyz : (jsFalsy y.lastModified = true → jsFalsy z.lastModified = true) ∧
      (jsFalsy y.lastModified = false → jsFalsy z.lastModified = false →
        (z.lastModified.getD "").data ≤ (y.lastModified.getD "").data)) :
    (jsFalsy x.lastModified = true → jsFalsy z.lastModified = true) ∧
    (jsFalsy x.lastModified = false → jsFalsy z.lastModified = false →
      (z.lastModified.getD "").data ≤ (x.lastModified.getD "").data) := by
  refine ⟨fun hx => hyz.1 (hxy.1 hx), fun hx hz => ?_⟩
  by_cases hy : jsFalsy y.lastModified
  · exact absurd (hyz.1 hy) (by simp [hz])
  · exact le_trans (hyz.2 (by simp [hy]) hz) (hxy.2 hx (by simp [hy]))

/-- `jsFalsy` entries are never ranked strictly before anything by
`cmpObjects` (the comparator returns 0 or 1 on them). -/
theorem cmpObjects_falsy_not_neg (x y : ObjectEntry)
    (hx : jsFalsy x.lastModified = true) : ¬ cmpObjects x y < 0 := by
  unfold cmpObjects
  by_cases hy : jsFalsy y.lastModified <;> simp [hx, hy]

/-- When `cmpFolders` ranks `x` strictly before `y`, `x.name ≤ y.name`. -/
theorem cmpFolders_neg {x y : FolderEntry} (h : cmpFolders x y < 0) :
    x.name.data ≤ y.name.data := by
  unfold cmpFolders localeCompare at h
  by_cases h1 : lexLt x.name.data y.name.data
  · exact le_of_lt ((lexLt_iff _ _).mp h1)
  · by_cases h2 : lexLt y.name.data x.name.data <;> simp [h1, h2] at h

/-- When `cmpFolders` does not rank `x` strictly before `y`,
`y.name ≤ x.name`. -/
theorem cmpFolders_nonneg {x y : FolderEntry} (h : ¬ cmpFolders x y < 0) :
    y.name.data ≤ x.name.data := by
  unfold cmpFolders localeCompare at h
  by_cases h1 : lexLt x.name.data y.name.data
  · simp [h1] at h
  · exact not_lt.mp (fun hlt => h1 ((lexLt_iff _ _).mpr hlt))

/-! ### Toolkit: string facts -/

theorem stringMk_data (s : String) : String.mk s.data = s := rfl

theorem slash_data : ("/" : String).data = ['/'] := rfl

theorem string_append_mk (s : String) (l : List Char) :
    s ++ String.mk l = String.mk (s.data ++ l) := by
  apply String.ext
  rw [String.data_append]

theorem removeFirstAux_of_isPrefixOf {pat l : List Char} (h : pat <+: l) :
    removeFirstAux pat l = l.drop pat.length := by
  cases l with
  | nil =>
    have hp : pat = [] := List.prefix_nil.mp h
    subst hp
    rfl
  | cons c cs =>
    have hb : pat.isPrefixOf (c :: cs) = true := List.isPrefixOf_iff_prefix.mpr h
    simp [removeFirstAux, hb]

/-- `replace` removes the queried prefix itself when the input starts with it
(its first occurrence is then at position 0). -/
theorem removeFirst_append (pfxq rest : String) :
    removeFirst (pfxq ++ rest) pfxq = rest := by
  unfold removeFirst
  have h : pfxq.data <+: (pfxq ++ rest).data := by
    rw [String.data_append]
    exact List.prefix_append _ _
  rw [removeFirstAux_of_isPrefixOf h, String.data_append, List.drop_left]

theorem specStripSlashes_eq (l : List Char) :
    l.dropWhile (fun c => c == '/') = specStripSlashes l := by
  induction l with
  | nil => rfl
  | cons c cs ih =>
    by_cases h : c = '/' <;> simp [List.dropWhile_cons, specStripSlashes, h, ih]

/-! ### Claims -/

/-- C1: for every valid listing request (`itemsPerPage` between 1 and 50)
and every storage response, `listObjectsPaginated` computes
`totalPages = ceil(totalItems / itemsPerPage)` (0 when `totalItems = 0`,
stated here in the equivalent quotient-plus-remainder form), every returned
page has length at most `itemsPerPage`, and the concatenation of pages
`1..totalPages` in order reproduces the full sorted list exactly once per
item — for the files list and the folders list independently. -/
theorem c1_pagination_partitions
    (data : PaginatedListData) (resp : ListChildrenResponse)
    (h1 : 1 ≤ data.itemsPerPage) (h50 : data.itemsPerPage ≤ 50) :
    ((listObjectsPaginatedHandler data resp).filesMeta.totalPages
        = (allObjectsOf resp).length / data.itemsPerPage
          + (if (allObjectsOf resp).length % data.itemsPerPage = 0 then 0 else 1)
      ∧ (listObjectsPaginatedHandler data resp).foldersMeta.totalPages
        = (foldersOf (normalizePfx data.pfx) resp.CommonPrefixes).length / data.itemsPerPage
          + (if (foldersOf (normalizePfx data.pfx) resp.CommonPrefixes).length
                % data.itemsPerPage = 0 then 0 else 1))
    ∧ ((listObjectsPaginatedHandler data resp).objects.length ≤ data.itemsPerPage
      ∧ (listObjectsPaginatedHandler data resp).folders.length ≤ data.itemsPerPage)
    ∧ ((List.range ((listObjectsPaginatedHandler data resp).filesMeta.totalPages)).map
          (fun i => (listObjectsPaginatedHandler { data with filesPage := i + 1 } resp).objects)).flatten
        = allObjectsOf resp
    ∧ ((List.range ((listObjectsPaginatedHandler data resp).foldersMeta.totalPages)).map
          (fun i => (listObjectsPaginatedHandler { data with foldersPage := i + 1 } resp).folders)).flatten
        = foldersOf (normalizePfx data.pfx) resp.CommonPrefixes := by
  refine ⟨⟨?_, ?_⟩, ⟨?_, ?_⟩, ?_, ?_⟩
  · simp only [listObjectsPaginatedHandler, pageMetaOf]
    exact totalPagesOf_eq_ceil h1 _
  · simp only [listObjectsPaginatedHandler, pageMetaOf]
    exact totalPagesOf_eq_ceil h1 _
  · simp only [listObjectsPaginatedHandler]
    exact paginate_length_le _ _ _
  · simp only [listObjectsPaginatedHandler]
    exact paginate_length_le _ _ _
  · simp only [listObjectsPaginatedHandler, pageMetaOf]
    exact flatten_paginate h1 (allObjectsOf resp).length _ le_rfl
  · simp only [listObjectsPaginatedHandler, pageMetaOf]
    exact flatten_paginate h1 (foldersOf (normalizePfx data.pfx) resp.CommonPrefixes).length _ le_rfl

/-- Witness for C1: the sample request satisfies the bounds and, for the
sample response, concatenating the file pages reproduces the full sorted
object list. -/
theorem c1_pagination_partitions_witness :
    (1 ≤ sampleData.itemsPerPage ∧ sampleData.itemsPerPage ≤ 50)
    ∧ ((List.range ((listObjectsPaginatedHandler sampleData sampleResp).filesMeta.totalPages)).map
          (fun i => (listObjectsPaginatedHandler { sampleData with filesPage := i + 1 } sampleResp).objects)).flatten
        = allObjectsOf sampleResp :=
  ⟨⟨by decide, by decide⟩,
    (c1_pagination_partitions sampleData sampleResp (by decide) (by decide)).2.2.1⟩

/-- C2: for every listing request, the returned metadata satisfies
`hasNextPage = page < totalPages` and `hasPrevPage = page > 1`, and whenever
the requested page exceeds the corresponding `totalPages` the returned page
is empty with `hasNextPage = false` rather than an error — for the files
list and the folders list independently. -/
theorem c2_beyond_total_pages
    (data : PaginatedListData) (resp : ListChildrenResponse)
    (h1 : 1 ≤ data.itemsPerPage) :
    ((listObjectsPaginatedHandler data resp).filesMeta.hasNextPage = true
        ↔ data.filesPage < (listObjectsPaginatedHandler data resp).filesMeta.totalPages)
    ∧ ((listObjectsPaginatedHandler data resp).filesMeta.hasPrevPage = true
        ↔ 1 < data.filesPage)
    ∧ ((listObjectsPaginatedHandler data resp).foldersMeta.hasNextPage = true
        ↔ data.foldersPage < (listObjectsPaginatedHandler data resp).foldersMeta.totalPages)
    ∧ ((listObjectsPaginatedHandler data resp).foldersMeta.hasPrevPage = true
        ↔ 1 < data.foldersPage)
    ∧ ((listObjectsPaginatedHandler data resp).filesMeta.totalPages < data.filesPage →
        (listObjectsPaginatedHandler data resp).objects = []
        ∧ (listObjectsPaginatedHandler data resp).filesMeta.hasNextPage = false)
    ∧ ((listObjectsPaginatedHandler data resp).foldersMeta.totalPages < data.foldersPage →
        (listObjectsPaginatedHandler data resp).folders = []
        ∧ (listObjectsPaginatedHandler data resp).foldersMeta.hasNextPage = false) := by
  refine ⟨?_, ?_, ?_, ?_, ?_, ?_⟩
  · simp [listObjectsPaginatedHandler, pageMetaOf]
  · simp [listObjectsPaginatedHandler, pageMetaOf]
  · simp [listObjectsPaginatedHandler, pageMetaOf]
  · simp [listObjectsPaginatedHandler, pageMetaOf]
  · intro hp
    simp only [listObjectsPaginatedHandler, pageMetaOf] at hp ⊢
    refine ⟨paginate_eq_nil h1 hp, by simpa using Nat.lt_asymm hp⟩
  · intro hp
    simp only [listObjectsPaginatedHandler, pageMetaOf] at hp ⊢
    refine ⟨paginate_eq_nil h1 hp, by simpa using Nat.lt_asymm hp⟩

/-- Witness for C2: requesting files page 5 of the sample response (which
has 2 pages) yields an empty page with `hasNextPage = false`. -/
theorem c2_beyond_total_pages_witness :
    1 ≤ sampleData.itemsPerPage
    ∧ ((listObjectsPaginatedHandler { sampleData with filesPage := 5 } sampleResp).filesMeta.totalPages < 5
        → (listObjectsPaginatedHandler { sampleData with filesPage := 5 } sampleResp).objects = []
        ∧ (listObjectsPaginatedHandler { sampleData with filesPage := 5 } sampleResp).filesMeta.hasNextPage = false) :=
  ⟨by decide,
    (c2_beyond_total_pages { sampleData with filesPage := 5 } sampleResp (by decide)).2.2.2.2.1⟩

/-- C3: in the objects list produced by `listObjectsPaginated`, whenever an
entry precedes another, a dated entry never follows an undated one (so every
undated entry sits after all dated ones, and for two dated entries the
earlier timestamp never precedes the later one); and the undated entries —
which the comparator ranks equal — appear in exactly their fetch order (the
filtered subsequence of undated entries of the page is a contiguous segment
of the fetched one).  The same order holds on the full sorted list the page
is cut from. -/
theorem c3_objects_sorted (data : PaginatedListData) (resp : ListChildrenResponse) :
    ((listObjectsPaginatedHandler data resp).objects.Pairwise (fun a b =>
        (jsFalsy a.lastModified = true → jsFalsy b.lastModified = true) ∧
        (jsFalsy a.lastModified = false → jsFalsy b.lastModified = false →
          (b.lastModified.getD "").data ≤ (a.lastModified.getD "").data)))
    ∧ (∃ pre suf,
        (safeMapObjects resp.Contents).filter (fun e => jsFalsy e.lastModified)
          = pre ++ (listObjectsPaginatedHandler data resp).objects.filter
              (fun e => jsFalsy e.lastModified) ++ suf)
    ∧ (allObjectsOf resp).Pairwise (fun a b =>
        (jsFalsy a.lastModified = true → jsFalsy b.lastModified = true) ∧
        (jsFalsy a.lastModified = false → jsFalsy b.lastModified = false →
          (b.lastModified.getD "").data ≤ (a.lastModified.getD "").data)) := by
  have hsorted : (allObjectsOf resp).Pairwise (fun a b =>
      (jsFalsy a.lastModified = true → jsFalsy b.lastModified = true) ∧
      (jsFalsy a.lastModified = false → jsFalsy b.lastModified = false →
        (b.lastModified.getD "").data ≤ (a.lastModified.getD "").data)) :=
    pairwise_sortJS objOrdered_trans (fun _ _ h => cmpObjects_neg h)
      (fun _ _ h => cmpObjects_nonneg h) _
  refine ⟨?_, ?_, hsorted⟩
  · have hsub : ((listObjectsPaginatedHandler data resp).objects).Sublist (allObjectsOf resp) := by
      simp only [listObjectsPaginatedHandler, paginate]
      exact (List.take_sublist _ _).trans (List.drop_sublist _ _)
    exact hsorted.sublist hsub
  · refine ⟨((allObjectsOf resp).take ((data.filesPage - 1) * data.itemsPerPage)).filter
        (fun e => jsFalsy e.lastModified),
      (((allObjectsOf resp).drop ((data.filesPage - 1) * data.itemsPerPage)).drop
          data.itemsPerPage).filter (fun e => jsFalsy e.lastModified), ?_⟩
    have hfilter : (safeMapObjects resp.Contents).filter (fun e => jsFalsy e.lastModified)
        = (allObjectsOf resp).filter (fun e => jsFalsy e.lastModified) :=
      (filter_sortJS (fun x y hx => cmpObjects_falsy_not_neg x y hx) _).symm
    rw [hfilter]
    have hL : allObjectsOf resp
        = (allObjectsOf resp).take ((data.filesPage - 1) * data.itemsPerPage)
          ++ (((allObjectsOf resp).drop ((data.filesPage - 1) * data.itemsPerPage)).take
                data.itemsPerPage
            ++ ((allObjectsOf resp).drop ((data.filesPage - 1) * data.itemsPerPage)).drop
                data.itemsPerPage) := by
      rw [List.take_append_drop, List.take_append_drop]
    conv_lhs => rw [hL]
    rw [List.filter_append, List.filter_append]
    simp only [listObjectsPaginatedHandler, paginate]
    rw [List.append_assoc]

theorem getLastQ_mem {α : Type} : ∀ {l : List α} {a : α}, l.getLast? = some a → a ∈ l := by
  intro l
  induction l with
  | nil =>
    intro a h
    simp at h
  | cons b bs ih =>
    intro a h
    cases bs with
    | nil =>
      simp at h
      simp [h]
    | cons c cs =>
      rw [List.getLast?_cons_cons] at h
      exact List.mem_cons_of_mem _ (ih h)

/-- C4, counterexample: under queried prefix `"a/"` the store can return the
common prefix `"a//"` (an object key with a doubled slash).  The pipeline
then produces the folder `{ name := "", prefix := "a//" }`, whose prefix
ends with *two* slashes — refuting "every produced folder prefix ... ends
with exactly one trailing slash". -/
theorem c4_counterexample :
    foldersOf "a/" (some [some "a//"]) = [{ name := "", pfx := "a//" }]
    ∧ ¬ (∀ f ∈ foldersOf "a/" (some [some "a//"]),
        endsWithSlash f.pfx = true ∧ f.pfx.data.dropLast.getLast? ≠ some '/') := by
  refine ⟨by decide, ?_⟩
  intro hall
  have h := hall { name := "", pfx := "a//" } (by decide)
  exact h.2 (by decide)

/-- C4 (amended): for store responses whose common prefixes have the S3
shape `queriedPrefix ++ segment ++ "/"` with a slash-free segment, the
folder pipeline sorts ascending by name, produces names without trailing
slashes, and every folder prefix equals `queriedPrefix ++ name ++ "/"`
(hence begins with the queried prefix and ends with a slash); the prefix
ends with *exactly one* slash whenever the name is non-empty — the doubled
slash of the counterexample (empty segment) is the one exception. -/
theorem c4_folders_shape (pfxq : String) (cps : Option (List (Option String)))
    (hstore : ∀ e ∈ cps.getD [], ∀ s : String, e = some s →
      ∃ seg : String, s = pfxq ++ seg ++ "/" ∧ '/' ∉ seg.data) :
    (foldersOf pfxq cps).Pairwise (fun f g => f.name.data ≤ g.name.data)
    ∧ ∀ f ∈ foldersOf pfxq cps,
        endsWithSlash f.name = false
        ∧ f.pfx = pfxq ++ f.name ++ "/"
        ∧ pfxq.data <+: f.pfx.data
        ∧ endsWithSlash f.pfx = true
        ∧ (f.name ≠ "" → f.pfx.data.dropLast.getLast? ≠ some '/') := by
  constructor
  · rw [foldersOf]
    exact @pairwise_sortJS FolderEntry cmpFolders (fun f g => f.name.data ≤ g.name.data)
      (fun x y z hx hy => le_trans hx hy)
      (fun _ _ h => cmpFolders_neg h) (fun _ _ h => cmpFolders_nonneg h) _
  · intro f hf
    rw [foldersOf, mem_sortJS] at hf
    unfold rawFoldersOf at hf
    rw [List.mem_map] at hf
    obtain ⟨n, hn, rfl⟩ := hf
    rw [List.mem_filter] at hn
    obtain ⟨hnY, hq⟩ := hn
    rw [Bool.and_eq_true, bne_iff_ne, bne_iff_ne] at hq
    obtain ⟨hne1, hne2⟩ := hq
    rw [List.mem_map] at hnY
    obtain ⟨e, he, hne⟩ := hnY
    cases e with
    | none =>
      simp only [Option.map_none', Option.getD_none] at hne
      exact absurd hne.symm hne1
    | some s =>
      simp only [Option.map_some', Option.getD_some] at hne
      obtain ⟨seg, hs, hseg⟩ := hstore (some s) he s rfl
      subst hs
      rw [String.append_assoc, removeFirst_append] at hne
      subst hne
      have hdata : (seg ++ "/").data = seg.data ++ ['/'] := by
        rw [String.data_append, slash_data]
      have hends : endsWithSlash (seg ++ "/") = true := by
        unfold endsWithSlash
        rw [hdata, List.getLast?_concat]
        rfl
      have hname : dropTrailingSlash (seg ++ "/") = seg := by
        unfold dropTrailingSlash
        rw [if_pos hends, hdata, List.dropLast_concat]
      have hnot : ∀ c, seg.data.getLast? = some c → c ≠ '/' := by
        intro c hc hc'
        subst hc'
        exact hseg (getLastQ_mem hc)
      refine ⟨?_, ?_, ?_, ?_, ?_⟩
      · show endsWithSlash (dropTrailingSlash (seg ++ "/")) = false
        rw [hname]
        unfold endsWithSlash
        cases hsl : seg.data.getLast? with
        | none => rfl
        | some c =>
          have := hnot c hsl
          simp [this]
      · show pfxq ++ (seg ++ "/") = pfxq ++ dropTrailingSlash (seg ++ "/") ++ "/"
        rw [hname, String.append_assoc]
      · show pfxq.data <+: (pfxq ++ (seg ++ "/")).data
        rw [String.data_append]
        exact List.prefix_append _ _
      · show endsWithSlash (pfxq ++ (seg ++ "/")) = true
        unfold endsWithSlash
        rw [String.data_append, hdata, ← List.append_assoc, List.getLast?_concat]
        rfl
      · show dropTrailingSlash (seg ++ "/") ≠ ""
          → (pfxq ++ (seg ++ "/")).data.dropLast.getLast? ≠ some '/'
        rw [hname]
        intro hemp
        have hsegd : seg.data ≠ [] := by
          intro h
          exact hemp (by cases seg; simp_all)
        rw [String.data_append, hdata, ← List.append_assoc, List.dropLast_concat]
        cases hsl : seg.data.getLast? with
        | none => exact absurd (List.getLast?_eq_none_iff.mp hsl) hsegd
        | some c =>
          rw [List.getLast?_append, hsl]
          simp [hnot c hsl]

/-- Witness for C4 (amended): the sample store shape holds for the common
prefixes under `"docs/"`, and the produced folder `alpha` has a slash-free
name and the prefix `"docs/" ++ "alpha" ++ "/"` ending in exactly one
slash. -/
theorem c4_folders_shape_witness :
    endsWithSlash (FolderEntry.name ⟨"alpha", "docs/alpha/"⟩) = false
    ∧ FolderEntry.pfx ⟨"alpha", "docs/alpha/"⟩
        = "docs/" ++ FolderEntry.name ⟨"alpha", "docs/alpha/"⟩ ++ "/"
    ∧ ("docs/" : String).data <+: (FolderEntry.pfx ⟨"alpha", "docs/alpha/"⟩).data
    ∧ endsWithSlash (FolderEntry.pfx ⟨"alpha", "docs/alpha/"⟩) = true
    ∧ (FolderEntry.name ⟨"alpha", "docs/alpha/"⟩ ≠ "" →
        (FolderEntry.pfx ⟨"alpha", "docs/alpha/"⟩).data.dropLast.getLast? ≠ some '/') :=
  (c4_folders_shape "docs/" (some [some "docs/zeta/", some "docs/alpha/"]) (by
    intro e he s hse
    simp only [Option.getD_some, List.mem_cons, List.mem_singleton] at he
    rcases he with rfl | rfl | h
    · cases hse
      exact ⟨"zeta", by decide, by decide⟩
    · cases hse
      exact ⟨"alpha", by decide, by decide⟩
    · cases h)).2 ⟨"alpha", "docs/alpha/"⟩ (by decide)

theorem runHook_aux (events : List HookEvent) :
    ∀ s : HookState,
      (∀ e k, s.inflight = some (e, k) → s.state = AccessState.loading k) →
      stateKey (events.foldl hookStep s).state = lastSelectedFrom (stateKey s.state) events
      ∧ ∀ e k, (events.foldl hookStep s).inflight = some (e, k) →
          (events.foldl hookStep s).state = AccessState.loading k := by
  induction events with
  | nil =>
    intro s hinv
    exact ⟨rfl, hinv⟩
  | cons ev es ih =>
    intro s hinv
    cases ev with
    | select k? =>
      cases k? with
      | none =>
        simp only [List.foldl_cons, hookStep, lastSelectedFrom]
        exact ih { epoch := s.epoch + 1, inflight := none, state := .idle }
          (by intro e k h; simp at h)
      | some k =>
        simp only [List.foldl_cons, hookStep, lastSelectedFrom]
        exact ih { epoch := s.epoch + 1, inflight := some (s.epoch + 1, k), state := AccessState.loading k }
          (by intro e k2 h2; simp at h2; rw [h2.2])
    | resolve e o =>
      simp only [List.foldl_cons, lastSelectedFrom]
      cases hin : s.inflight with
      | none =>
        have hstep : hookStep s (HookEvent.resolve e o) = s := by
          simp [hookStep, hin]
        rw [hstep]
        exact ih s hinv
      | some p =>
        obtain ⟨eF, k⟩ := p
        by_cases he : e = eF
        · have hload := hinv eF k hin
          cases o with
          | success d =>
            have hstep : hookStep s (HookEvent.resolve e (FetchOutcome.success d))
                = ⟨s.epoch, none, AccessState.success k d⟩ := by
              simp [hookStep, hin, he]
            rw [hstep]
            have hrec := ih ⟨s.epoch, none, AccessState.success k d⟩
              (by intro e2 k2 h2; simp at h2)
            refine ⟨?_, hrec.2⟩
            rw [hload]
            exact hrec.1
          | failure m =>
            have hstep : hookStep s (HookEvent.resolve e (FetchOutcome.failure m))
                = ⟨s.epoch, none, AccessState.error k m⟩ := by
              simp [hookStep, hin, he]
            rw [hstep]
            have hrec := ih ⟨s.epoch, none, AccessState.error k m⟩
              (by intro e2 k2 h2; simp at h2)
            refine ⟨?_, hrec.2⟩
            rw [hload]
            exact hrec.1
        · have hstep : hookStep s (HookEvent.resolve e o) = s := by
            simp [hookStep, hin, he]
          rw [hstep]
          exact ih s hinv

/-- C5: in the `useObjectAccess` state machine, the final state always
corresponds to the most recently selected key (idle when the last selection
was null, never a key from an earlier selection) — no matter when the
outstanding fetches of abandoned selections resolve, successfully or not. -/
theorem c5_last_selection_wins (events : List HookEvent) :
    stateKey (runHook events).state = lastSelectedFrom none events := by
  have h := runHook_aux events initialHookState
    (by intro e k hk; simp [initialHookState] at hk)
  simpa [runHook, initialHookState, stateKey] using h.1

/-- C6: every malformed listing request — a given `foldersPage` or
`filesPage` that is not positive, or a given `itemsPerPage` that is not
positive or exceeds 50 — is rejected with a validation error, and no storage
call is issued (the recorded request list is empty). -/
theorem c6_malformed_rejected_before_storage (bucket : String)
    (input : PaginatedListInput) (store : ListChildrenRequest → ListChildrenResponse)
    (hbad : (∃ v, input.foldersPage = some v ∧ v ≤ 0)
      ∨ (∃ v, input.filesPage = some v ∧ v ≤ 0)
      ∨ (∃ v, input.itemsPerPage = some v ∧ (v ≤ 0 ∨ 50 < v))) :
    (∃ e, (listObjectsPaginated bucket input store).1 = Except.error e)
    ∧ (listObjectsPaginated bucket input store).2 = [] := by
  have herr : ∃ e, parsePaginatedList input = Except.error e := by
    unfold parsePaginatedList
    by_cases h1 : input.foldersPage.getD 1 ≤ 0
    · exact ⟨ValidationError.foldersPageNotPositive, by simp [h1]⟩
    · by_cases h2 : input.filesPage.getD 1 ≤ 0
      · exact ⟨ValidationError.filesPageNotPositive, by simp [h1, h2]⟩
      · by_cases h3 : input.itemsPerPage.getD 10 ≤ 0
        · exact ⟨ValidationError.itemsPerPageNotPositive, by simp [h1, h2, h3]⟩
        · by_cases h4 : 50 < input.itemsPerPage.getD 10
          · exact ⟨ValidationError.itemsPerPageAboveCap, by simp [h1, h2, h3, h4]⟩
          · exfalso
            rcases hbad with ⟨v, hv, hvle⟩ | ⟨v, hv, hvle⟩ | ⟨v, hv, hvle⟩
            · rw [hv] at h1
              simp at h1
              omega
            · rw [hv] at h2
              simp at h2
              omega
            · rw [hv] at h3 h4
              simp at h3 h4
              omega
  obtain ⟨e, he⟩ := herr
  unfold listObjectsPaginated
  rw [he]
  exact ⟨⟨e, rfl⟩, rfl⟩

/-- Witness for C6: `foldersPage = 0` is rejected and issues no storage
call. -/
theorem c6_malformed_rejected_before_storage_witness :
    (some (0 : Int) = some (0 : Int) ∧ (0 : Int) ≤ 0)
    ∧ (listObjectsPaginated "bucket"
        { pfx := none, foldersPage := some 0, filesPage := none, itemsPerPage := none }
        sampleStore).2 = [] :=
  ⟨⟨rfl, by decide⟩,
    (c6_malformed_rejected_before_storage "bucket"
      { pfx := none, foldersPage := some 0, filesPage := none, itemsPerPage := none }
      sampleStore (Or.inl ⟨0, rfl, by decide⟩)).2⟩

/-- C7: for every access request accepted by validation, `getObjectAccess`
presigns with a fixed 300-second (five-minute) TTL — the input carries no
TTL at all — embeds the requested content-disposition (defaulting to inline
when the input left it unspecified) and the `headObject` content-type as
response-override parameters of the signed URL, and returns the head
metadata in the grant. -/
theorem c7_access_presign_parameters (bucket : String) (input : AccessInput)
    (head : String → HeadResponse) (presign : PresignRequest → String)
    (data : AccessData) (hok : parseObjectAccess input = Except.ok data) :
    ∃ grant preq, getObjectAccess bucket input head presign = Except.ok (grant, preq)
      ∧ preq.expiresIn = 300
      ∧ (data.disposition = Disposition.attachment →
          preq.responseContentDisposition = "attachment")
      ∧ (data.disposition = Disposition.inline →
          preq.responseContentDisposition = "inline")
      ∧ (input.disposition = none → preq.responseContentDisposition = "inline")
      ∧ preq.responseContentType = (head data.key).ContentType
      ∧ grant.contentType = ((head data.key).ContentType.getD "application/octet-stream")
      ∧ grant.contentLength = ((head data.key).ContentLength.getD 0)
      ∧ grant.lastModified = (head data.key).LastModified
      ∧ grant.signedUrl = presign preq := by
  have hdef : input.disposition = none → data.disposition = Disposition.inline := by
    intro hnone
    unfold parseObjectAccess at hok
    rw [hnone] at hok
    split at hok
    · cases hok
    · split at hok
      · cases hok
      · cases hok
        rfl
  unfold getObjectAccess
  rw [hok]
  refine ⟨_, _, rfl, rfl, ?_, ?_, ?_, rfl, rfl, rfl, rfl, rfl⟩
  · intro hd
    simp [hd]
  · intro hd
    simp [hd]
  · intro hnone
    simp [hdef hnone]

/-- Witness for C7: a concrete request with unspecified disposition gets a
300-second inline presign carrying the head content-type. -/
theorem c7_access_presign_parameters_witness :
    parseObjectAccess { key := some "docs/a", disposition := none }
      = Except.ok { key := "docs/a", disposition := Disposition.inline }
    ∧ ∃ grant preq, getObjectAccess "bucket" { key := some "docs/a", disposition := none }
        sampleHead samplePresign
        = Except.ok (grant, preq)
      ∧ preq.expiresIn = 300
      ∧ (({ key := "docs/a", disposition := Disposition.inline } : AccessData).disposition
          = Disposition.attachment → preq.responseContentDisposition = "attachment") := by
  refine ⟨rfl, ?_⟩
  obtain ⟨grant, preq, h1, h2, h3, -⟩ :=
    c7_access_presign_parameters "bucket" { key := some "docs/a", disposition := none }
      sampleHead samplePresign
      { key := "docs/a", disposition := Disposition.inline } rfl
  exact ⟨grant, preq, h1, h2, h3⟩

/-- C8, counterexample: on the input `"/"` (only slashes), stripping leaves
the empty string, so the claimed normalization returns `""`; the code
appends a slash anyway and returns `"/"`. -/
theorem c8_counterexample :
    normalizePfx (some "/") = "/"
    ∧ specNormalizePfxClaim (some "/") = ""
    ∧ normalizePfx (some "/") ≠ specNormalizePfxClaim (some "/") := by
  refine ⟨by decide, by decide, by decide⟩

/-- C8 (amended): the normalization strips all leading slashes and appends
exactly one trailing slash whenever the stripped string does not already end
with one — including when stripping left the empty string, so an all-slash
input normalizes to "/" rather than "" — and maps an absent or empty input
to the empty string; both `listObjects` and `listObjectsPaginated` scope
their storage call with exactly this normalization (as `prefix || undefined`). -/
theorem c8_normalization (p? : Option String) :
    normalizePfx p? = specNormalizePfxAmended p?
    ∧ (∀ bucket input store req, req ∈ (listObjectsPaginated bucket input store).2 →
        req.pfx = (if normalizePfx input.pfx == "" then none
                   else some (normalizePfx input.pfx)))
    ∧ (∀ bucket input store req, req ∈ (listObjects bucket input store).2 →
        req.pfx = (if normalizePfx input.pfx == "" then none
                   else some (normalizePfx input.pfx))) := by
  refine ⟨?_, ?_, ?_⟩
  · cases p? with
    | none => rfl
    | some p =>
      simp only [normalizePfx, specNormalizePfxAmended]
      by_cases hp : p = ""
      · subst hp
        simp
      · have hb : (p == "") = false := by simp [hp]
        have hd : ¬ p.data = [] := by
          intro h
          exact hp (by cases p; simp_all)
        rw [hb, if_neg hd]
        simp only [Bool.false_eq_true, if_false]
        have hstrip : stripLeadingSlashes p = String.mk (specStripSlashes p.data) := by
          unfold stripLeadingSlashes
          rw [specStripSlashes_eq]
        rw [hstrip]
        unfold endsWithSlash
        by_cases hl : (specStripSlashes p.data).getLast? = some '/'
        · simp [hl]
        · simp [hl]
          exact string_append_mk _ ['/']
  · intro bucket input store req hreq
    unfold listObjectsPaginated at hreq
    cases hparse : parsePaginatedList input with
    | error e =>
      rw [hparse] at hreq
      simp at hreq
    | ok data =>
      rw [hparse] at hreq
      simp at hreq
      subst hreq
      have hpfx : data.pfx = input.pfx := by
        unfold parsePaginatedList at hparse
        split at hparse
        · cases hparse
        · split at hparse
          · cases hparse
          · split at hparse
            · cases hparse
            · split at hparse
              · cases hparse
              · cases hparse
                rfl
      simp [paginatedRequestOf, hpfx]
  · intro bucket input store req hreq
    unfold listObjects at hreq
    cases hparse : parseListRequest input with
    | error e =>
      rw [hparse] at hreq
      simp at hreq
    | ok data =>
      rw [hparse] at hreq
      simp at hreq
      subst hreq
      have hpfx : data.pfx = input.pfx := by
        unfold parseListRequest at hparse
        split at hparse
        · cases hparse
        · split at hparse
          · cases hparse
          · cases hparse
            rfl
      simp [listRequestOf, hpfx]

/-- Witness for C8 (amended): the one request issued for the sample input is
scoped with the normalized prefix `"docs/"`. -/
theorem c8_normalization_witness :
    ({ bucket := "bucket", pfx := some "docs/", delimiter := "/", maxKeys := 1000,
       continuationToken := none } : ListChildrenRequest)
      ∈ (listObjectsPaginated "bucket" sampleInput sampleStore).2
    ∧ ({ bucket := "bucket", pfx := some "docs/", delimiter := "/", maxKeys := 1000,
         continuationToken := none } : ListChildrenRequest).pfx
      = (if normalizePfx sampleInput.pfx == "" then none
         else some (normalizePfx sampleInput.pfx)) :=
  ⟨by decide,
    (c8_normalization none).2.1 "bucket" sampleInput sampleStore _ (by decide)⟩

theorem safeMapObjects_entry_facts (contents : Option (List RawObject))
    (hsz : ∀ o ∈ contents.getD [], ∀ s : Int, o.Size = some s → 0 ≤ s) :
    ∀ e ∈ safeMapObjects contents, e.key ≠ "" ∧ 0 ≤ e.size := by
  intro e he
  unfold safeMapObjects at he
  rw [List.mem_map] at he
  obtain ⟨o, ho, rfl⟩ := he
  rw [List.mem_filter] at ho
  obtain ⟨hmem, htr⟩ := ho
  constructor
  · cases hk : o.Key with
    | none =>
      rw [hk] at htr
      simp [jsTruthy] at htr
    | some t =>
      rw [hk] at htr
      simp [jsTruthy] at htr
      simp [hk, htr]
  · cases hs : o.Size with
    | none => simp [hs]
    | some s2 =>
      simp [hs]
      exact hsz o hmem s2 hs

/-- C9: the raw-to-`ObjectEntry` mapping is total over partial inputs — a
missing `Contents` list means no entries, an entry with a missing or empty
`Key` is silently dropped, a missing `Size` defaults to 0 — so (for a store
whose reported sizes are non-negative) every entry of every listing result
has a non-empty key and a non-negative size, and no input reaches an error. -/
theorem c9_mapping_total (contents : Option (List RawObject))
    (hsz : ∀ o ∈ contents.getD [], ∀ s : Int, o.Size = some s → 0 ≤ s) :
    safeMapObjects none = []
    ∧ (∀ e ∈ safeMapObjects contents, e.key ≠ "" ∧ 0 ≤ e.size)
    ∧ (∀ o rest, jsTruthy o.Key = false →
        safeMapObjects (some (o :: rest)) = safeMapObjects (some rest))
    ∧ (∀ o : RawObject, jsTruthy o.Key = true → o.Size = none →
        safeMapObjects (some [o])
          = [{ key := o.Key.getD "", size := 0, lastModified := o.LastModified,
               etag := o.ETag }])
    ∧ (∀ data resp,
        (∀ o ∈ ListChildrenResponse.Contents resp |>.getD [], ∀ s : Int,
            o.Size = some s → 0 ≤ s) →
        ∀ e ∈ (listObjectsPaginatedHandler data resp).objects, e.key ≠ "" ∧ 0 ≤ e.size) := by
  refine ⟨rfl, safeMapObjects_entry_facts contents hsz, ?_, ?_, ?_⟩
  · intro o rest h
    simp [safeMapObjects, List.filter_cons, h]
  · intro o h hs
    simp [safeMapObjects, List.filter_cons, h, hs]
  · intro data resp hsz2 e he
    simp only [listObjectsPaginatedHandler, paginate] at he
    have hmem : e ∈ allObjectsOf resp :=
      List.mem_of_mem_drop (List.mem_of_mem_take he)
    rw [allObjectsOf, mem_sortJS] at hmem
    exact safeMapObjects_entry_facts resp.Contents hsz2 e hmem

/-- Witness for C9: the sample contents satisfy the size hypothesis; an
entry with `Key := none` is dropped without error. -/
theorem c9_mapping_total_witness :
    safeMapObjects none = []
    ∧ safeMapObjects (some [⟨none, some 9, none, none⟩,
        ⟨some "docs/c", some 3, none, none⟩])
      = safeMapObjects (some [⟨some "docs/c", some 3, none, none⟩]) := by
  have hsz : ∀ o ∈ sampleResp.Contents.getD [], ∀ s : Int, o.Size = some s → 0 ≤ s := by
    intro o ho s hs
    simp [sampleResp] at ho
    rcases ho with rfl | rfl | rfl | rfl | rfl <;> simp at hs <;> omega
  have h := c9_mapping_total sampleResp.Contents hsz
  exact ⟨h.1, h.2.2.1 ⟨none, some 9, none, none⟩
    [⟨some "docs/c", some 3, none, none⟩] rfl⟩

/-- C10: every successful `getObjectAccess` returns the requested key
unchanged in the grant, substitutes `application/octet-stream` for a missing
head content-type and 0 for a missing content-length, and simply omits
`lastModified` when the head lacks it — none of these absences fails. -/
theorem c10_grant_defaults (bucket : String) (input : AccessInput)
    (head : String → HeadResponse) (presign : PresignRequest → String)
    (data : AccessData) (hok : parseObjectAccess input = Except.ok data) :
    ∃ grant preq, getObjectAccess bucket input head presign = Except.ok (grant, preq)
      ∧ grant.key = data.key
      ∧ input.key = some data.key
      ∧ ((head data.key).ContentType = none → grant.contentType = "application/octet-stream")
      ∧ ((head data.key).ContentLength = none → grant.contentLength = 0)
      ∧ grant.lastModified = (head data.key).LastModified := by
  have hkey : input.key = some data.key := by
    unfold parseObjectAccess at hok
    split at hok
    · cases hok
    next k heq =>
      split at hok
      · cases hok
      · split at hok
        · cases hok
          exact heq
        · cases hok
          exact heq
        · cases hok
          exact heq
        · cases hok
  unfold getObjectAccess
  rw [hok]
  refine ⟨_, _, rfl, rfl, hkey, ?_, ?_, rfl⟩
  · intro h
    simp [h]
  · intro h
    simp [h]

/-- Witness for C10: with a head response lacking every metadata field, the
grant for key `"docs/a"` carries the defaults. -/
theorem c10_grant_defaults_witness :
    parseObjectAccess { key := some "docs/a", disposition := some "attachment" }
      = Except.ok { key := "docs/a", disposition := Disposition.attachment }
    ∧ ∃ grant preq, getObjectAccess "bucket"
        { key := some "docs/a", disposition := some "attachment" }
        sampleHeadNone samplePresign = Except.ok (grant, preq)
      ∧ grant.key = "docs/a"
      ∧ ((sampleHeadNone "docs/a").ContentType = none →
          grant.contentType = "application/octet-stream") := by
  refine ⟨rfl, ?_⟩
  obtain ⟨grant, preq, h1, h2, -, h4, -⟩ :=
    c10_grant_defaults "bucket" { key := some "docs/a", disposition := some "attachment" }
      sampleHeadNone samplePresign
      { key := "docs/a", disposition := Disposition.attachment } rfl
  exact ⟨grant, preq, h1, h2, h4⟩
